import Mathlib

/-!
Shallow embedding of the bdk wallet chain-sync core:

* `src/blockchain/electrum.rs` — the `WalletSync::wallet_setup` phase loop,
  the session transaction cache `TxCache` (`save_txs`, `get`) and the
  single-transaction `GetTx::get_tx` pass-through;
* `src/blockchain/esplora/mod.rs` — the pure fee-rate selector `into_fee_rate`.

Machine integers are modelled as `Nat`/`Int` with explicit wrap-around where
the source casts (`height as u32`).  Remote and store calls are modelled as
capability records of total Lean functions returning `Except Err`; every
remote batched call and every store commit is additionally recorded in an
event trace so that call-counting properties can be stated.
-/

namespace Bdk

/-- Error type, mirroring the variants of `bdk::Error` that this code can
produce: a transport error from the electrum client (`Error::Electrum`),
`Error::Generic` with a message, and a store error from the database. -/
inductive Err where
  | electrum (code : Nat)
  | generic (msg : String)
  | store (code : Nat)
deriving DecidableEq, Repr

/-- The distinct inconsistency error of `wallet_setup`:
`Error::Generic("electrum server misbehaving".to_string())`. -/
def electrum_goof : Err := Err.generic "electrum server misbehaving"

/-- Association map with Rust `HashMap` observable semantics: `insert`
shadows any older binding for the key, `get` returns the newest binding. -/
def Map (β : Type) : Type := List (Nat × β)

/-- The empty map (`HashMap::default()` / `HashMap::new()`). -/
def Map.nil {β : Type} : Map β := []

/-- Lookup of a key (`HashMap::get`). -/
def Map.get {β : Type} (m : Map β) (k : Nat) : Option β :=
  (List.find? (fun p => p.1 == k) m).map (fun p => p.2)

/-- Insertion of a binding (`HashMap::insert`); the new binding shadows any
previous binding for the same key. -/
def Map.insert {β : Type} (m : Map β) (k : Nat) (v : β) : Map β :=
  (k, v) :: m

instance instDecEqMap {β : Type} [DecidableEq β] : DecidableEq (Map β) :=
  inferInstanceAs (DecidableEq (List (Nat × β)))

instance instReprMap {β : Type} [Repr β] : Repr (Map β) :=
  inferInstanceAs (Repr (List (Nat × β)))

/-- A previous-output reference (`bitcoin::OutPoint`): a transaction id and
an output index. -/
structure OutPoint where
  txid : Nat
  vout : Nat
deriving DecidableEq, Repr

/-- The `OutPoint::is_null` test of the bitcoin crate: the null outpoint is
the all-zero txid with `vout = u32::MAX`, used by coinbase inputs. -/
def OutPoint.is_null (o : OutPoint) : Bool :=
  o.txid == 0 && o.vout == 4294967295

/-- A transaction input (`bitcoin::TxIn`), reduced to the only field the
sync core reads. -/
structure TxIn where
  previous_output : OutPoint
deriving DecidableEq, Repr

/-- A transaction output (`bitcoin::TxOut`), reduced to an abstract value. -/
structure TxOut where
  value : Nat
deriving DecidableEq, Repr

/-- A transaction (`bitcoin::Transaction`).  The id computed by
`Transaction::txid()` is a collision-free hash of the body; it is modelled
abstractly as the field `hash`. -/
structure Tx where
  hash : Nat
  input : List TxIn
  output : List TxOut
deriving DecidableEq, Repr

/-- The computed transaction id (`Transaction::txid()`). -/
def Tx.txid (t : Tx) : Nat := t.hash

/-- One entry of an electrum script-history response: a transaction id and
a signed height (`height <= 0` means unconfirmed). -/
structure HistoryEntry where
  tx_hash : Nat
  height : Int
deriving DecidableEq, Repr

/-- A block header, reduced to the `time` field read by the sync core. -/
structure Header where
  time : Nat
deriving DecidableEq, Repr

/-- A confirmation record (`bdk::BlockTime`): height and timestamp. -/
structure BlockTime where
  height : Nat
  timestamp : Nat
deriving DecidableEq, Repr

/-- The remote backend capability (`electrum_client::Client` as used by this
module): batched script-history, batched headers, batched transactions, and
the single-transaction call used by `GetTx::get_tx`.  External to the
repository; modelled as arbitrary total functions returning `Except Err`. -/
structure Client where
  batch_script_get_history : List Nat → Except Err (List (List HistoryEntry))
  batch_block_header : List Nat → Except Err (List Header)
  batch_transaction_get : List Nat → Except Err (List Tx)
  transaction_get : Nat → Except Err Tx

/-- The persistent store capability (the `Database`/`BatchDatabase` methods
used by this module): `get_raw_tx` and `commit_batch`.  The batch update
payload is abstracted to a `Nat`. -/
structure Db where
  get_raw_tx : Nat → Except Err (Option Tx)
  commit_batch : Nat → Except Err Unit

/-- Modelled from the spec: the `script_sync::Request` state machine
(`src/blockchain/script_sync.rs` is not part of the shown sources).  Each
non-terminal phase exposes a restartable sequence of pending work items and
a `satisfy` operation consuming a batch of resolved answers and yielding
the next phase; `finish` carries the batch update to commit.  The payload
types of the three `satisfy` operations are exactly the ones the electrum
module passes: per-script `(txid, height option)` lists, per-txid optional
confirmation times, and per-transaction previous-output details. -/
inductive Request where
  | script (pending : List Nat)
      (sat : List (List (Nat × Option Nat)) → Except Err Request)
  | conftime (pending : List Nat)
      (sat : List (Option BlockTime) → Except Err Request)
  | tx (pending : List Nat)
      (sat : List (List (Option TxOut) × Tx) → Except Err Request)
  | finish (update : Nat)

/-- Observable side effects of a sync run: the three batched remote calls
and the final store commit, each recorded with its argument. -/
inductive Ev where
  | fetchHist (scripts : List Nat)
  | fetchHeaders (heights : List Nat)
  | fetchTxs (txids : List Nat)
  | commit (update : Nat)
deriving DecidableEq, Repr

/-- The three session-scoped maps of `wallet_setup`: `block_times`,
`txid_to_height` and the `TxCache` contents. -/
structure SyncState where
  block_times : Map Nat
  txid_to_height : Map Nat
  cache : Map Tx
deriving DecidableEq, Repr

/-- The initial session state: all three maps empty. -/
def initSyncState : SyncState := ⟨Map.nil, Map.nil, Map.nil⟩

/-! ### Transaction cache (`TxCache::save_txs`, `TxCache::get`) -/

/-- The first loop of `save_txs`: walk the requested ids, skipping ids
already cached, loading ids found by `db.get_raw_tx` into the cache (a `?`
on the store lookup propagates the error), and accumulating the remaining
ids in `need_fetch` in request order. -/
def scanTxids (db : Db) : List Nat → Map Tx → List Nat →
    Except Err (Map Tx × List Nat)
  | [], cache, nf => Except.ok (cache, nf)
  | t :: rest, cache, nf =>
    if (cache.get t).isSome then
      scanTxids db rest cache nf
    else
      match db.get_raw_tx t with
      | Except.error e => Except.error e
      | Except.ok (some transaction) =>
          scanTxids db rest (cache.insert t transaction) nf
      | Except.ok none => scanTxids db rest cache (nf ++ [t])

/-- The `TxCache::save_txs` method: partition the requested ids, issue one
batched remote fetch for the ids in `need_fetch` when it is non-empty (the
fetch is recorded in the event trace even when it fails), and cache each
returned transaction under its computed id `tx.txid()`.  The identity of
the returned transactions against the requested ids is only checked by a
`debug_assert_eq!` in the source, which is compiled out in release builds
and is therefore not an error path here. -/
def save_txs (db : Db) (client : Client) (cache : Map Tx) (txids : List Nat) :
    List Ev × Except Err (Map Tx) :=
  match scanTxids db txids cache [] with
  | Except.error e => ([], Except.error e)
  | Except.ok (cache, need_fetch) =>
    if need_fetch.isEmpty then ([], Except.ok cache)
    else
      match client.batch_transaction_get need_fetch with
      | Except.error e => ([Ev.fetchTxs need_fetch], Except.error e)
      | Except.ok txs =>
          ([Ev.fetchTxs need_fetch],
            Except.ok ((txs.zip need_fetch).foldl
              (fun c p => c.insert p.1.txid p.1) cache))

/-- The decidable must-fetch test of `save_txs` relative to the state at
entry: the id is neither cached nor found in the store. -/
def mustFetchP (db : Db) (cache : Map Tx) (t : Nat) : Bool :=
  (cache.get t).isNone &&
    (match db.get_raw_tx t with
     | Except.ok none => true
     | _ => false)

/-- The must-fetch subsequence of a request, in request order. -/
def mustFetch (db : Db) (cache : Map Tx) (txids : List Nat) : List Nat :=
  txids.filter (mustFetchP db cache)

/-! ### Script phase (`Request::Script` arm of `wallet_setup`) -/

/-- Processing of one script-history entry: a reported height `<= 0` yields
no recorded height, a positive height is cast `as u32` and inserted into
`txid_to_height`. -/
def processEntry (m : Map Nat) (e : HistoryEntry) : Map Nat × (Nat × Option Nat) :=
  if e.height ≤ 0 then (m, (e.tx_hash, none))
  else
    (m.insert e.tx_hash (e.height.toNat % 4294967296),
      (e.tx_hash, some (e.height.toNat % 4294967296)))

/-- Processing of one script's history list, in response order, threading
`txid_to_height`. -/
def processScriptTxs : Map Nat → List HistoryEntry →
    Map Nat × List (Nat × Option Nat)
  | m, [] => (m, [])
  | m, e :: rest =>
    let (m1, p) := processEntry m e
    let (m2, ps) := processScriptTxs m1 rest
    (m2, p :: ps)

/-- Processing of the whole `batch_script_get_history` response, one inner
list per requested script, threading `txid_to_height`. -/
def processHistory : Map Nat → List (List HistoryEntry) →
    Map Nat × List (List (Nat × Option Nat))
  | m, [] => (m, [])
  | m, txs :: rest =>
    let (m1, ps) := processScriptTxs m txs
    let (m2, pss) := processHistory m1 rest
    (m2, ps :: pss)

/-- The `Request::Script` arm: draw `chunk_size` scripts, issue the batched
history call, record `(txid, height)` pairs, and hand the per-script lists
to `satisfy`. -/
def scriptStep (client : Client) (c : Nat) (pending : List Nat)
    (sat : List (List (Nat × Option Nat)) → Except Err Request)
    (st : SyncState) : List Ev × Except Err (Request × SyncState) :=
  let scripts := pending.take c
  match client.batch_script_get_history scripts with
  | Except.error e => ([Ev.fetchHist scripts], Except.error e)
  | Except.ok hist =>
    let (m, tps) := processHistory st.txid_to_height hist
    match sat tps with
    | Except.error e => ([Ev.fetchHist scripts], Except.error e)
    | Except.ok req =>
        ([Ev.fetchHist scripts],
          Except.ok (req, { st with txid_to_height := m }))

/-! ### Confirmation-time phase (`Request::Conftime` arm) -/

/-- The height stream of the conftime arm: pending txids mapped through
`txid_to_height` and filtered to heights not yet in `block_times`. -/
def confStream (st : SyncState) (pending : List Nat) : List Nat :=
  (pending.filterMap (fun t => st.txid_to_height.get t)).filter
    (fun h => (st.block_times.get h).isNone)

/-- The collection loop of the conftime arm: `while needs.len() < chunk_size`
pull the next height from the stream and insert it into the set.  The
`HashSet` is modelled as a duplicate-free list in insertion order. -/
def collectNeedsGo (c : Nat) : List Nat → List Nat → List Nat
  | [], acc => acc
  | h :: rest, acc =>
    if acc.length < c then
      collectNeedsGo c rest (if h ∈ acc then acc else acc ++ [h])
    else acc

/-- The collected set of at most `chunk_size` distinct heights to fetch. -/
def collectNeeds (c : Nat) (stream : List Nat) : List Nat :=
  collectNeedsGo c stream []

/-- Insertion of the fetched headers: zip the requested heights with the
returned headers (truncating at the shorter list, as `zip` does) and store
each `(height, header.time)` pair. -/
def updateBlockTimes (bt : Map Nat) (needs : List Nat) (headers : List Header) :
    Map Nat :=
  (needs.zip headers).foldl (fun m p => m.insert p.1 p.2.time) bt

/-- The per-txid resolution of the conftime arm, with the short-circuiting
of `collect::<Result<_, Error>>()`: a txid with no recorded height yields
`None`; a txid with a recorded height whose timestamp is missing from
`block_times` fails with the inconsistency error `electrum_goof`. -/
def conftimeBatch (m : Map Nat) (bt : Map Nat) : List Nat →
    Except Err (List (Option BlockTime))
  | [] => Except.ok []
  | t :: rest =>
    match m.get t with
    | none => (conftimeBatch m bt rest).map (fun l => none :: l)
    | some h =>
      match bt.get h with
      | none => Except.error electrum_goof
      | some ts =>
          (conftimeBatch m bt rest).map (fun l => some ⟨h, ts⟩ :: l)

/-- The `Request::Conftime` arm: collect at most `chunk_size` distinct
uncached heights, batch-fetch their headers, update `block_times`, resolve
`chunk_size` pending txids and hand the batch to `satisfy`. -/
def conftimeStep (client : Client) (c : Nat) (pending : List Nat)
    (sat : List (Option BlockTime) → Except Err Request)
    (st : SyncState) : List Ev × Except Err (Request × SyncState) :=
  let needs := collectNeeds c (confStream st pending)
  match client.batch_block_header needs with
  | Except.error e => ([Ev.fetchHeaders needs], Except.error e)
  | Except.ok headers =>
    let bt := updateBlockTimes st.block_times needs headers
    match conftimeBatch st.txid_to_height bt (pending.take c) with
    | Except.error e => ([Ev.fetchHeaders needs], Except.error e)
    | Except.ok conftimes =>
      match sat conftimes with
      | Except.error e => ([Ev.fetchHeaders needs], Except.error e)
      | Except.ok req =>
          ([Ev.fetchHeaders needs],
            Except.ok (req, { st with block_times := bt }))

/-! ### Transaction phase (`Request::Tx` arm) -/

/-- The post-`save_txs` cache lookup of the tx arm
(`tx_cache.get(*txid).ok_or_else(electrum_goof)` collected through
`Result`): a missing id fails with the inconsistency error. -/
def lookupAll (cache : Map Tx) : List Nat → Except Err (List Tx)
  | [] => Except.ok []
  | t :: rest =>
    match cache.get t with
    | none => Except.error electrum_goof
    | some transaction => (lookupAll cache rest).map (fun l => transaction :: l)

/-- The referenced prior transaction ids of a chunk: all non-null
previous-output txids of the fetched transactions' inputs, in order. -/
def inputTxids (txs : List Tx) : List Nat :=
  (txs.map (fun transaction =>
    ((transaction.input.filter
        (fun i => !i.previous_output.is_null)).map
      (fun i => i.previous_output.txid)))).flatten

/-- The per-input previous-output resolution of the tx arm: a null
(coinbase) reference yields `None`; otherwise the referenced transaction is
looked up in the cache and its `vout`-th output is selected with the
index-guarded `output.get(vout)`; a missing transaction or an out-of-range
index fails with the inconsistency error. -/
def prevOutputsGo (cache : Map Tx) : List TxIn →
    Except Err (List (Option TxOut))
  | [] => Except.ok []
  | i :: rest =>
    if i.previous_output.is_null then
      (prevOutputsGo cache rest).map (fun l => none :: l)
    else
      match cache.get i.previous_output.txid with
      | none => Except.error electrum_goof
      | some prev =>
        match prev.output.get? i.previous_output.vout with
        | none => Except.error electrum_goof
        | some o => (prevOutputsGo cache rest).map (fun l => some o :: l)

/-- The previous outputs of one transaction's inputs. -/
def prevOutputs (cache : Map Tx) (transaction : Tx) :
    Except Err (List (Option TxOut)) :=
  prevOutputsGo cache transaction.input

/-- The `full_details` computation of the tx arm: each transaction paired
with the resolved previous outputs of its inputs, short-circuiting on the
first inconsistency. -/
def txDetails (cache : Map Tx) : List Tx →
    Except Err (List (List (Option TxOut) × Tx))
  | [] => Except.ok []
  | transaction :: rest =>
    match prevOutputs cache transaction with
    | Except.error e => Except.error e
    | Except.ok l => (txDetails cache rest).map (fun d => (l, transaction) :: d)

/-- The `Request::Tx` arm: draw `chunk_size` txids, ensure they are cached,
look them up, ensure their referenced prior transactions are cached in one
further `save_txs` call, compute the per-transaction details and hand them
to `satisfy`. -/
def txStep (db : Db) (client : Client) (c : Nat) (pending : List Nat)
    (sat : List (List (Option TxOut) × Tx) → Except Err Request)
    (st : SyncState) : List Ev × Except Err (Request × SyncState) :=
  let needs_full := pending.take c
  match save_txs db client st.cache needs_full with
  | (tr1, Except.error e) => (tr1, Except.error e)
  | (tr1, Except.ok cache1) =>
    match lookupAll cache1 needs_full with
    | Except.error e => (tr1, Except.error e)
    | Except.ok full_transactions =>
      match save_txs db client cache1 (inputTxids full_transactions) with
      | (tr2, Except.error e) => (tr1 ++ tr2, Except.error e)
      | (tr2, Except.ok cache2) =>
        match txDetails cache2 full_transactions with
        | Except.error e => (tr1 ++ tr2, Except.error e)
        | Except.ok full_details =>
          match sat full_details with
          | Except.error e => (tr1 ++ tr2, Except.error e)
          | Except.ok req =>
              (tr1 ++ tr2, Except.ok (req, { st with cache := cache2 }))

/-! ### The sync loop and `wallet_setup` -/

/-- The `loop` of `wallet_setup`, with a fuel bound for termination: match
the current request phase, run its arm, and continue with the returned
request; `finish` breaks out with the batch update.  The result `none`
means the fuel ran out with the loop still running; traces of all
iterations are concatenated. -/
def runLoop (db : Db) (client : Client) (c : Nat) :
    Nat → Request → SyncState →
    List Ev × Option (Except Err (Nat × SyncState))
  | 0, _, _ => ([], none)
  | Nat.succ fuel, req, st =>
    match req with
    | Request.finish u => ([], some (Except.ok (u, st)))
    | Request.script pending sat =>
      match scriptStep client c pending sat st with
      | (tr, Except.error e) => (tr, some (Except.error e))
      | (tr, Except.ok (req1, st1)) =>
        let (tr1, r) := runLoop db client c fuel req1 st1
        (tr ++ tr1, r)
    | Request.conftime pending sat =>
      match conftimeStep client c pending sat st with
      | (tr, Except.error e) => (tr, some (Except.error e))
      | (tr, Except.ok (req1, st1)) =>
        let (tr1, r) := runLoop db client c fuel req1 st1
        (tr ++ tr1, r)
    | Request.tx pending sat =>
      match txStep db client c pending sat st with
      | (tr, Except.error e) => (tr, some (Except.error e))
      | (tr, Except.ok (req1, st1)) =>
        let (tr1, r) := runLoop db client c fuel req1 st1
        (tr ++ tr1, r)

/-- The `WalletSync::wallet_setup` entry point: run the loop from the empty
session state; on a phase failure (or exhausted fuel, `none`) the error is
returned without touching the store; when the loop breaks at `finish` the
batch update is committed by exactly one `commit_batch` call, recorded in
the trace. -/
def wallet_setup (db : Db) (client : Client) (c fuel : Nat) (req : Request) :
    List Ev × Option (Except Err Unit) :=
  match runLoop db client c fuel req initSyncState with
  | (tr, none) => (tr, none)
  | (tr, some (Except.error e)) => (tr, some (Except.error e))
  | (tr, some (Except.ok (u, _))) =>
    match db.commit_batch u with
    | Except.error e => (tr ++ [Ev.commit u], some (Except.error e))
    | Except.ok _ => (tr ++ [Ev.commit u], some (Except.ok ()))

/-- The commit events of a trace. -/
def isCommit : Ev → Bool
  | Ev.commit _ => true
  | _ => false

/-- The number of `commit_batch` invocations recorded in a trace. -/
def commitCount (tr : List Ev) : Nat := (tr.filter isCommit).length

/-- Whether a loop outcome is a successful arrival at `Finished`. -/
def isFinished : Option (Except Err (Nat × SyncState)) → Bool
  | some (Except.ok _) => true
  | _ => false

/-! ### `GetTx::get_tx` -/

/-- The `GetTx` implementation for the electrum blockchain:
`Ok(self.client.transaction_get(txid).map(Option::Some)?)`. -/
def get_tx (client : Client) (t : Nat) : Except Err (Option Tx) :=
  (client.transaction_get t).map some

/-- Whether a `get_tx` result is `Ok(None)`. -/
def isOkNoneRes : Except Err (Option Tx) → Bool
  | Except.ok none => true
  | _ => false

/-! ### Fee-rate selector (`into_fee_rate`, esplora) -/

/-- One decimal digit of a key, via the character's code point; models the
digit test of `usize::from_str`. -/
def charDigit (c : Char) : Option Nat :=
  let n := c.toNat
  if 48 ≤ n ∧ n ≤ 57 then some (n - 48) else none

/-- Accumulating decimal parse of a character list; any non-digit rejects
the whole key. -/
def digitsToNat (acc : Nat) : List Char → Option Nat
  | [] => some acc
  | c :: rest =>
    match charDigit c with
    | none => none
    | some d => digitsToNat (acc * 10 + d) rest

/-- The key parse `k.parse::<usize>().ok()`: a non-empty all-digit string
parses to its decimal value, anything else is `none`. -/
def parseKey (s : String) : Option Nat :=
  match s.data with
  | [] => none
  | l => digitsToNat 0 l

/-- The `filter_map` of `into_fee_rate`: parse every key, silently
discarding entries whose key is not an integer. -/
def parseEstimates (estimates : List (String × ℚ)) : List (Nat × ℚ) :=
  estimates.filterMap (fun kv => (parseKey kv.1).map (fun n => (n, kv.2)))

/-- Insertion into a list sorted by key descending; models one step of
`sort_unstable_by_key(Reverse(k))`. -/
def insertDesc (p : Nat × ℚ) : List (Nat × ℚ) → List (Nat × ℚ)
  | [] => [p]
  | q :: rest => if q.1 ≤ p.1 then p :: q :: rest else q :: insertDesc p rest

/-- Sorting by key descending. -/
def sortDesc : List (Nat × ℚ) → List (Nat × ℚ)
  | [] => []
  | p :: rest => insertDesc p (sortDesc rest)

/-- The esplora fee selector `into_fee_rate`: keep the integer-parseable
keys, sort the pairs by key descending, take the first entry whose key is
at most the target, and default to a rate of `1` sat/vB when there is
none.  The rate is carried to the caller unchanged (the source wraps it in
`FeeRate::from_sat_per_vb`), so it is modelled as an exact rational. -/
def into_fee_rate (target : Nat) (estimates : List (String × ℚ)) : ℚ :=
  match (sortDesc (parseEstimates estimates)).find? (fun p => p.1 ≤ target) with
  | some p => p.2
  | none => 1

/-! ### Specification-side definitions and witness fixtures -/

/-- Restatement of the spec's per-input contract for the tx phase, used to
compare against `prevOutputs`: a null (coinbase-like) reference yields
`None`; a non-null reference yields `Some` of the referenced prior output,
and is undefined (`none` at the outer level) when the referenced
transaction is not cached or the index is out of range. -/
def prevOutputSpec (cache : Map Tx) (i : TxIn) : Option (Option TxOut) :=
  if i.previous_output.is_null then some none
  else
    ((cache.get i.previous_output.txid).bind
      (fun p => p.output.get? i.previous_output.vout)).map some

/-- The spec-side resolution of a whole input list: defined exactly when
every input resolves. -/
def inputsSpec (cache : Map Tx) : List TxIn → Option (List (Option TxOut))
  | [] => some []
  | i :: rest =>
    match prevOutputSpec cache i with
    | none => none
    | some o => (inputsSpec cache rest).map (fun l => o :: l)

/-- Sortedness by key descending, the postcondition of
`sort_unstable_by_key(Reverse(k))`. -/
def SortedDesc (l : List (Nat × ℚ)) : Prop :=
  l.Pairwise (fun a b => b.1 ≤ a.1)

/-- The final recorded height of a phase-step outcome for one txid. -/
def heightAfter (r : List Ev × Except Err (Request × SyncState)) (t : Nat) :
    Option Nat :=
  match r.2 with
  | Except.ok (_, st) => st.txid_to_height.get t
  | Except.error _ => none

/-- A store with no raw transactions whose commits succeed. -/
def db0 : Db := ⟨fun _ => Except.ok none, fun _ => Except.ok ()⟩

/-- A transaction whose computed id is `2`, with no inputs or outputs. -/
def tx2 : Tx := ⟨2, [], []⟩

/-- A backend answering every batched call with an empty list. -/
def clientNil : Client :=
  ⟨fun _ => Except.ok [], fun _ => Except.ok [], fun _ => Except.ok [],
   fun _ => Except.error (Err.electrum 0)⟩

/-- A backend whose batched transaction fetch always returns `[tx2]`,
whatever ids were requested. -/
def client1 : Client :=
  { clientNil with batch_transaction_get := fun _ => Except.ok [tx2] }

/-- A backend whose script-history call reports the same txid `1` at two
different positive heights `5` and `7` in one response. -/
def clientHist : Client :=
  { clientNil with
    batch_script_get_history := fun _ => Except.ok [[⟨1, 5⟩, ⟨1, 7⟩]] }

/-- A satisfy operation for the script phase that finishes immediately. -/
def satFinScript : List (List (Nat × Option Nat)) → Except Err Request :=
  fun _ => Except.ok (Request.finish 0)

/-- A satisfy operation for the conftime phase that finishes immediately. -/
def satFinConf : List (Option BlockTime) → Except Err Request :=
  fun _ => Except.ok (Request.finish 0)

/-- A satisfy operation for the tx phase that finishes immediately. -/
def satFinTx : List (List (Option TxOut) × Tx) → Except Err Request :=
  fun _ => Except.ok (Request.finish 0)

/-- A session state in which txid `5` is recorded at height `100` and no
block time is cached. -/
def st7 : SyncState :=
  { initSyncState with txid_to_height := Map.insert Map.nil 5 100 }

/-- A prior transaction with computed id `3` and exactly one output. -/
def txP : Tx := ⟨3, [], [⟨50⟩]⟩

/-- A transaction with one input referencing output `5` of `txP`, which is
out of range. -/
def txA : Tx := ⟨4, [⟨⟨3, 5⟩⟩], []⟩

/-- A transaction with one input referencing output `0` of `txP`, which is
in range. -/
def txB : Tx := ⟨6, [⟨⟨3, 0⟩⟩], []⟩

/-- A cache holding `txP` under its id `3`. -/
def cacheP : Map Tx := Map.insert Map.nil 3 txP

/-! ## Theorems -/

theorem Map.get_insert {β : Type} (m : Map β) (k k' : Nat) (v : β) :
    (m.insert k v).get k' = if k = k' then some v else m.get k' := by
  by_cases h : k = k'
  · subst h
    simp [Map.get, Map.insert]
  · simp [Map.get, Map.insert, List.find?_cons, h, Ne.symm h]

theorem Map.get_insert_self {β : Type} (m : Map β) (k : Nat) (v : β) :
    (m.insert k v).get k = some v := by
  simp [Map.get_insert]

theorem Map.get_insert_ne {β : Type} (m : Map β) {k k' : Nat} (v : β)
    (h : k ≠ k') : (m.insert k v).get k' = m.get k' := by
  simp [Map.get_insert, h]

/-- C10: for every txid, the electrum `get_tx` never returns `Ok(None)`:
when the inner `transaction_get` succeeds, the transaction is wrapped in
`Some`, and a failure propagates as an error. -/
theorem c10_get_tx_never_ok_none (client : Client) (t : Nat) :
    isOkNoneRes (get_tx client t) = false := by
  unfold get_tx isOkNoneRes
  cases client.transaction_get t <;> rfl

/-- C1, counterexample: a backend returning, for requested id `1`, a
transaction whose computed id is `2` does not make `save_txs` fail — the
call returns `Ok` (the identity check in the source is only a
`debug_assert_eq!`), caching the transaction under its computed id `2`
while id `1` stays absent. -/
theorem c1_counterexample :
    (save_txs db0 client1 Map.nil [1]).2 = Except.ok (Map.insert Map.nil 2 tx2) ∧
    (Map.insert Map.nil 2 tx2).get 1 = none := by
  constructor <;> rfl

/-- C1, amended: when the backend returns, for a requested id, only
transactions whose computed ids differ from it, `save_txs` succeeds (the
identity check is a debug-only assertion, not an error path), yet no entry
is cached under the requested id: every new cache entry is keyed by the
returned transaction's computed id, so the backend's claimed mapping is
never recorded and the missing entry surfaces later as an inconsistency at
the orchestrator's cache lookup. -/
theorem c1_amended (db : Db) (client : Client) (cache : Map Tx) (t : Nat)
    (txs : List Tx)
    (h1 : cache.get t = none)
    (h2 : db.get_raw_tx t = Except.ok none)
    (h3 : client.batch_transaction_get [t] = Except.ok txs)
    (h4 : ∀ u ∈ txs, Tx.txid u ≠ t) :
    ∃ c2, save_txs db client cache [t] = ([Ev.fetchTxs [t]], Except.ok c2) ∧
      c2.get t = none ∧
      ∀ k v, c2.get k = some v → cache.get k = some v ∨ (v ∈ txs ∧ v.txid = k) := by
  have hscan : scanTxids db [t] cache [] = Except.ok (cache, [t]) := by
    simp [scanTxids, h1, h2]
  refine ⟨(txs.zip [t]).foldl (fun c p => c.insert p.1.txid p.1) cache, ?_, ?_, ?_⟩
  · unfold save_txs
    rw [hscan]
    simp [h3]
  · cases txs with
    | nil => simpa using h1
    | cons u rest =>
        have hne : u.txid ≠ t := h4 u (List.mem_cons_self u rest)
        simp only [List.zip, List.zipWith, List.foldl]
        rw [Map.get_insert_ne _ _ hne]
        exact h1
  · intro k v hget
    cases txs with
    | nil => exact Or.inl (by simpa using hget)
    | cons u rest =>
        simp only [List.zip, List.zipWith, List.foldl] at hget
        by_cases hk : u.txid = k
        · subst hk
          rw [Map.get_insert_self] at hget
          exact Or.inr ⟨by simp [← Option.some_inj.mp hget], by
            rw [← Option.some_inj.mp hget]⟩
        · rw [Map.get_insert_ne _ _ hk] at hget
          exact Or.inl hget

theorem scanTxids_spec (db : Db) :
    ∀ (txids : List Nat) (cache : Map Tx) (nf : List Nat),
    txids.Nodup → (∀ t ∈ txids, ∃ o, db.get_raw_tx t = Except.ok o) →
    ∃ c2, scanTxids db txids cache nf =
      Except.ok (c2, nf ++ mustFetch db cache txids) := by
  intro txids
  induction txids with
  | nil =>
      intro cache nf _ _
      exact ⟨cache, by simp [scanTxids, mustFetch]⟩
  | cons t rest ih =>
      intro cache nf hnd hdb
      have hndr : rest.Nodup := (List.nodup_cons.mp hnd).2
      have htn : t ∉ rest := (List.nodup_cons.mp hnd).1
      have hdbr : ∀ u ∈ rest, ∃ o, db.get_raw_tx u = Except.ok o :=
        fun u hu => hdb u (List.mem_cons_of_mem _ hu)
      cases hg : cache.get t with
      | some tx0 =>
          have hmp : mustFetchP db cache t = false := by
            simp [mustFetchP, hg]
          obtain ⟨c2, hr⟩ := ih cache nf hndr hdbr
          refine ⟨c2, ?_⟩
          rw [show scanTxids db (t :: rest) cache nf =
                scanTxids db rest cache nf by simp [scanTxids, hg]]
          rw [hr]
          simp [mustFetch, hmp]
      | none =>
          obtain ⟨o, ho⟩ := hdb t (List.mem_cons_self _ _)
          cases o with
          | none =>
              have hmp : mustFetchP db cache t = true := by
                simp [mustFetchP, hg, ho]
              obtain ⟨c2, hr⟩ := ih cache (nf ++ [t]) hndr hdbr
              refine ⟨c2, ?_⟩
              rw [show scanTxids db (t :: rest) cache nf =
                    scanTxids db rest cache (nf ++ [t]) by
                  simp [scanTxids, hg, ho]]
              rw [hr]
              simp [mustFetch, hmp, List.append_assoc]
          | some tx0 =>
              have hmp : mustFetchP db cache t = false := by
                simp [mustFetchP, hg, ho]
              have hmf : mustFetch db (cache.insert t tx0) rest =
                  mustFetch db cache rest := by
                unfold mustFetch
                apply List.filter_congr
                intro u hu
                have hut : t ≠ u := fun h => htn (h ▸ hu)
                simp [mustFetchP, Map.get_insert_ne _ _ hut]
              obtain ⟨c2, hr⟩ := ih (cache.insert t tx0) nf hndr hdbr
              refine ⟨c2, ?_⟩
              rw [show scanTxids db (t :: rest) cache nf =
                    scanTxids db rest (cache.insert t tx0) nf by
                  simp [scanTxids, hg, ho]]
              rw [hr, hmf]
              simp [mustFetch, hmp]

/-- C4: one `save_txs` call issues zero batched remote fetches when the
must-fetch set (ids neither cached nor in the store) is empty — and then
succeeds, a no-op — and otherwise issues exactly one batched fetch whose
argument is exactly the must-fetch subsequence; ids found in the store
cause no remote call. -/
theorem c4_save_txs_single_fetch (db : Db) (client : Client) (cache : Map Tx)
    (txids : List Nat) (hnd : txids.Nodup)
    (hdb : ∀ t ∈ txids, ∃ o, db.get_raw_tx t = Except.ok o) :
    ((save_txs db client cache txids).1 =
      if (mustFetch db cache txids).isEmpty then []
      else [Ev.fetchTxs (mustFetch db cache txids)]) ∧
    ((mustFetch db cache txids).isEmpty →
      ∃ c2, save_txs db client cache txids = ([], Except.ok c2)) := by
  obtain ⟨c2, hr⟩ := scanTxids_spec db txids cache [] hnd hdb
  rw [List.nil_append] at hr
  constructor
  · unfold save_txs
    rw [hr]
    by_cases he : (mustFetch db cache txids).isEmpty
    · simp [he]
    · simp only [he, Bool.false_eq_true, if_neg, ite_false]
      cases client.batch_transaction_get (mustFetch db cache txids) <;>
        simp [he]
  · intro he
    unfold save_txs
    rw [hr]
    exact ⟨c2, by simp [he]⟩

/-- C4, witness at a concrete input: two requested ids, one already
cached, the other absent from store and cache, so the single fetch
requests exactly that one id. -/
theorem c4_witness :
    [1, 2].Nodup ∧ (∀ t ∈ [1, 2], ∃ o, db0.get_raw_tx t = Except.ok o) ∧
    ((save_txs db0 clientNil (Map.insert Map.nil 1 tx2) [1, 2]).1 =
      if (mustFetch db0 (Map.insert Map.nil 1 tx2) [1, 2]).isEmpty then []
      else [Ev.fetchTxs (mustFetch db0 (Map.insert Map.nil 1 tx2) [1, 2])]) :=
  ⟨by decide, fun t _ => ⟨none, rfl⟩,
    (c4_save_txs_single_fetch db0 clientNil (Map.insert Map.nil 1 tx2) [1, 2]
      (by decide) (fun t _ => ⟨none, rfl⟩)).1⟩

theorem perm_insertDesc (p : Nat × ℚ) : ∀ l, List.Perm (insertDesc p l) (p :: l) := by
  intro l
  induction l with
  | nil => simp [insertDesc]
  | cons a rest ih =>
      by_cases h : a.1 ≤ p.1
      · simp [insertDesc, h]
      · rw [show insertDesc p (a :: rest) = a :: insertDesc p rest by
          simp [insertDesc, h]]
        exact (ih.cons a).trans (List.Perm.swap p a rest)

theorem perm_sortDesc : ∀ l, List.Perm (sortDesc l) l := by
  intro l
  induction l with
  | nil => simp [sortDesc]
  | cons a rest ih =>
      rw [show sortDesc (a :: rest) = insertDesc a (sortDesc rest) from rfl]
      exact (perm_insertDesc a (sortDesc rest)).trans (ih.cons a)

theorem sortedDesc_insertDesc (p : Nat × ℚ) :
    ∀ l, SortedDesc l → SortedDesc (insertDesc p l) := by
  intro l
  induction l with
  | nil => intro _; simp [insertDesc, SortedDesc]
  | cons a rest ih =>
      intro hs
      obtain ⟨ha, hrest⟩ := List.pairwise_cons.mp hs
      by_cases h : a.1 ≤ p.1
      · rw [show insertDesc p (a :: rest) = p :: a :: rest by
          simp [insertDesc, h]]
        refine List.pairwise_cons.mpr ⟨?_, hs⟩
        intro b hb
        rcases List.mem_cons.mp hb with hb | hb
        · exact hb ▸ h
        · exact le_trans (ha b hb) h
      · rw [show insertDesc p (a :: rest) = a :: insertDesc p rest by
          simp [insertDesc, h]]
        refine List.pairwise_cons.mpr ⟨?_, ih hrest⟩
        intro b hb
        have hb2 : b = p ∨ b ∈ rest :=
          List.mem_cons.mp ((perm_insertDesc p rest).mem_iff.mp hb)
        rcases hb2 with hb2 | hb2
        · exact hb2 ▸ le_of_lt (lt_of_not_le h)
        · exact ha b hb2

theorem sortedDesc_sortDesc : ∀ l, SortedDesc (sortDesc l) := by
  intro l
  induction l with
  | nil => simp [sortDesc, SortedDesc]
  | cons a rest ih => exact sortedDesc_insertDesc a (sortDesc rest) ih

theorem find?_sortedDesc_max (target : Nat) :
    ∀ (L : List (Nat × ℚ)) (p : Nat × ℚ), SortedDesc L →
      L.find? (fun q => q.1 ≤ target) = some p →
      p.1 ≤ target ∧ ∀ q ∈ L, q.1 ≤ target → q.1 ≤ p.1 := by
  intro L
  induction L with
  | nil => intro p _ h; simp [List.find?] at h
  | cons a rest ih =>
      intro p hs hf
      obtain ⟨ha, hrest⟩ := List.pairwise_cons.mp hs
      by_cases hat : a.1 ≤ target
      · have : p = a := by
          rw [List.find?_cons_of_pos _ (by simpa using hat)] at hf
          exact (Option.some_inj.mp hf).symm
        subst this
        refine ⟨hat, ?_⟩
        intro q hq _
        rcases List.mem_cons.mp hq with hq | hq
        · exact hq ▸ le_refl _
        · exact ha q hq
      · rw [List.find?_cons_of_neg _ (by simpa using hat)] at hf
        obtain ⟨h1, h2⟩ := ih p hrest hf
        refine ⟨h1, ?_⟩
        intro q hq hqt
        rcases List.mem_cons.mp hq with hq | hq
        · exact absurd (hq ▸ hqt) hat
        · exact h2 q hq hqt

/-- C3: the fee selector returns the rate mapped to the largest
integer-parseable key not exceeding the target (non-integer keys are
discarded), defaults to a rate of `1` sat/vB when no key qualifies, and in
particular returns `2.236` for the table with keys `6` and `9` at target
`6`, returns `1.015` for target `26` when the maximum key `25` maps to
`1.015`, and returns `1` on the empty table for every target. -/
theorem c3_into_fee_rate :
    (∀ (target : Nat) (estimates : List (String × ℚ)) (k0 : Nat) (v0 : ℚ),
      ((parseEstimates estimates).map Prod.fst).Nodup →
      (k0, v0) ∈ parseEstimates estimates → k0 ≤ target →
      (∀ p ∈ parseEstimates estimates, p.1 ≤ target → p.1 ≤ k0) →
      into_fee_rate target estimates = v0) ∧
    (∀ (target : Nat) (estimates : List (String × ℚ)),
      (∀ p ∈ parseEstimates estimates, target < p.1) →
      into_fee_rate target estimates = 1) ∧
    into_fee_rate 6 [("6", 2.236), ("9", 2.236)] = 2.236 ∧
    into_fee_rate 26 [("6", 2.236), ("9", 2.236), ("25", 1.015)] = 1.015 ∧
    (∀ target, into_fee_rate target [] = 1) := by
  refine ⟨?_, ?_, rfl, rfl, fun _ => rfl⟩
  · intro target estimates k0 v0 hnd hmem hk0 hmax
    have hperm := perm_sortDesc (parseEstimates estimates)
    have hmemL : (k0, v0) ∈ sortDesc (parseEstimates estimates) :=
      hperm.mem_iff.mpr hmem
    have hfind : ∃ p, (sortDesc (parseEstimates estimates)).find?
        (fun q => q.1 ≤ target) = some p := by
      cases hf : (sortDesc (parseEstimates estimates)).find?
          (fun q => q.1 ≤ target) with
      | some p => exact ⟨p, rfl⟩
      | none =>
          have := List.find?_eq_none.mp hf (k0, v0) hmemL
          simp [hk0] at this
    obtain ⟨p, hp⟩ := hfind
    obtain ⟨hple, hmaxp⟩ := find?_sortedDesc_max target _ p
      (sortedDesc_sortDesc (parseEstimates estimates)) hp
    have hpmem : p ∈ parseEstimates estimates :=
      hperm.mem_iff.mp (List.mem_of_find?_eq_some hp)
    have hkey : p.1 = k0 :=
      le_antisymm (hmax p hpmem hple) (hmaxp (k0, v0) hmemL hk0)
    have hndL : ((sortDesc (parseEstimates estimates)).map Prod.fst).Nodup :=
      ((hperm.map Prod.fst).nodup_iff).mpr hnd
    have hpeq : p = (k0, v0) :=
      List.inj_on_of_nodup_map hndL (List.mem_of_find?_eq_some hp) hmemL hkey
    unfold into_fee_rate
    rw [hp, hpeq]
  · intro target estimates h
    unfold into_fee_rate
    have hnone : (sortDesc (parseEstimates estimates)).find?
        (fun q => q.1 ≤ target) = none := by
      apply List.find?_eq_none.mpr
      intro x hx
      have hxp : x ∈ parseEstimates estimates :=
        (perm_sortDesc _).mem_iff.mp hx
      simp [Nat.not_le.mpr (h x hxp)]
    rw [hnone]

/-- C3, witness for the general selection property at a concrete input. -/
theorem c3_witness :
    ((parseEstimates [("6", (2.236 : ℚ)), ("9", 2.236)]).map Prod.fst).Nodup ∧
    (6, (2.236 : ℚ)) ∈ parseEstimates [("6", (2.236 : ℚ)), ("9", 2.236)] ∧
    (6 : Nat) ≤ 6 ∧
    (∀ p ∈ parseEstimates [("6", (2.236 : ℚ)), ("9", 2.236)],
      p.1 ≤ 6 → p.1 ≤ 6) ∧
    into_fee_rate 6 [("6", (2.236 : ℚ)), ("9", 2.236)] = 2.236 := by
  have hnd : ((parseEstimates [("6", (2.236 : ℚ)), ("9", 2.236)]).map
      Prod.fst).Nodup := by
    rw [show (parseEstimates [("6", (2.236 : ℚ)), ("9", 2.236)]).map Prod.fst =
      [6, 9] from rfl]
    decide
  have hmem : (6, (2.236 : ℚ)) ∈ parseEstimates [("6", (2.236 : ℚ)),
      ("9", 2.236)] := by
    rw [show parseEstimates [("6", (2.236 : ℚ)), ("9", 2.236)] =
      [(6, (2.236 : ℚ)), (9, 2.236)] from rfl]
    exact List.mem_cons_self _ _
  exact ⟨hnd, hmem, le_refl 6, fun p _ h => h,
    c3_into_fee_rate.1 6 [("6", 2.236), ("9", 2.236)] 6 2.236 hnd hmem
      (le_refl 6) (fun p _ h => h)⟩

/-- C2, counterexample: within one sync session the txid-to-height map can
be overwritten with a different height — a script-history response that
reports txid `1` first at height `5` and later at height `7` leaves the map
at `7` after it held `5`, both through the raw history fold and through a
full script-phase step. -/
theorem c2_counterexample :
    (processHistory Map.nil [[⟨1, 5⟩]]).1.get 1 = some 5 ∧
    (processHistory (processHistory Map.nil [[⟨1, 5⟩]]).1 [[⟨1, 7⟩]]).1.get 1 =
      some 7 ∧
    heightAfter (scriptStep clientHist 10 [0] satFinScript initSyncState) 1 =
      some 7 := by
  refine ⟨rfl, rfl, rfl⟩

theorem processScriptTxs_isSome (t : Nat) :
    ∀ (l : List HistoryEntry) (m : Map Nat), (m.get t).isSome →
      ((processScriptTxs m l).1.get t).isSome := by
  intro l
  induction l with
  | nil => intro m h; simpa [processScriptTxs] using h
  | cons e rest ih =>
      intro m h
      show ((processScriptTxs m (e :: rest)).1.get t).isSome
      by_cases he : e.height ≤ 0
      · simpa [processScriptTxs, processEntry, he] using ih m h
      · have h2 : (((m.insert e.tx_hash
            (e.height.toNat % 4294967296)).get t)).isSome := by
          by_cases ht : e.tx_hash = t
          · subst ht
            rw [Map.get_insert_self]
            rfl
          · rw [Map.get_insert_ne _ _ ht]
            exact h
        simpa [processScriptTxs, processEntry, he] using
          ih (m.insert e.tx_hash (e.height.toNat % 4294967296)) h2

theorem processScriptTxs_stable (t v : Nat) :
    ∀ (l : List HistoryEntry) (m : Map Nat), m.get t = some v →
      (∀ e ∈ l, e.tx_hash = t → 0 < e.height →
        e.height.toNat % 4294967296 = v) →
      (processScriptTxs m l).1.get t = some v := by
  intro l
  induction l with
  | nil => intro m h _; simpa [processScriptTxs] using h
  | cons e rest ih =>
      intro m h hcons
      have hrest : ∀ e1 ∈ rest, e1.tx_hash = t → 0 < e1.height →
          e1.height.toNat % 4294967296 = v :=
        fun e1 he1 => hcons e1 (List.mem_cons_of_mem _ he1)
      by_cases he : e.height ≤ 0
      · simpa [processScriptTxs, processEntry, he] using ih m h hrest
      · have hpos : 0 < e.height := lt_of_not_le he
        have h2 : (m.insert e.tx_hash
            (e.height.toNat % 4294967296)).get t = some v := by
          by_cases ht : e.tx_hash = t
          · subst ht
            rw [Map.get_insert_self,
              hcons e (List.mem_cons_self _ _) rfl hpos]
          · rw [Map.get_insert_ne _ _ ht]
            exact h
        simpa [processScriptTxs, processEntry, he] using
          ih (m.insert e.tx_hash (e.height.toNat % 4294967296)) h2 hrest

theorem processHistory_isSome (t : Nat) :
    ∀ (hist : List (List HistoryEntry)) (m : Map Nat), (m.get t).isSome →
      ((processHistory m hist).1.get t).isSome := by
  intro hist
  induction hist with
  | nil => intro m h; simpa [processHistory] using h
  | cons txs rest ih =>
      intro m h
      simpa [processHistory] using
        ih (processScriptTxs m txs).1 (processScriptTxs_isSome t txs m h)

theorem processHistory_stable (t v : Nat) :
    ∀ (hist : List (List HistoryEntry)) (m : Map Nat), m.get t = some v →
      (∀ e ∈ hist.flatten, e.tx_hash = t → 0 < e.height →
        e.height.toNat % 4294967296 = v) →
      (processHistory m hist).1.get t = some v := by
  intro hist
  induction hist with
  | nil => intro m h _; simpa [processHistory] using h
  | cons txs rest ih =>
      intro m h hcons
      have hhead : ∀ e ∈ txs, e.tx_hash = t → 0 < e.height →
          e.height.toNat % 4294967296 = v := by
        intro e he
        exact hcons e (by simp [List.flatten_cons, List.mem_append, he])
      have htail : ∀ e ∈ rest.flatten, e.tx_hash = t → 0 < e.height →
          e.height.toNat % 4294967296 = v := by
        intro e he
        exact hcons e (by simp [List.flatten_cons, List.mem_append, he])
      simpa [processHistory] using
        ih (processScriptTxs m txs).1
          (processScriptTxs_stable t v txs m h hhead) htail

/-- C2, amended: within one sync session, txid-to-height entries are never
removed (an id once recorded stays recorded), and an entry is overwritten
with a different height only when a later script-history entry reports a
different positive height for the same txid — in particular, when every
history entry for the txid agrees with the recorded height, the entry is
never overwritten. -/
theorem c2_amended (m : Map Nat) (hist : List (List HistoryEntry)) (t v : Nat)
    (hset : m.get t = some v) :
    (∃ w, (processHistory m hist).1.get t = some w) ∧
    ((∀ e ∈ hist.flatten, e.tx_hash = t → 0 < e.height →
        e.height.toNat % 4294967296 = v) →
      (processHistory m hist).1.get t = some v) := by
  constructor
  · have := processHistory_isSome t hist m (by simp [hset])
    exact Option.isSome_iff_exists.mp this
  · exact processHistory_stable t v hist m hset

/-- C2, witness for the amended theorem at a concrete input. -/
theorem c2_witness :
    (Map.insert Map.nil 1 5).get 1 = some 5 ∧
    (∀ e ∈ ([[⟨1, 5⟩], [⟨2, 9⟩]] : List (List HistoryEntry)).flatten,
      e.tx_hash = 1 → 0 < e.height → e.height.toNat % 4294967296 = 5) ∧
    (∃ w, (processHistory (Map.insert Map.nil 1 5)
        [[⟨1, 5⟩], [⟨2, 9⟩]]).1.get 1 = some w) ∧
    (processHistory (Map.insert Map.nil 1 5) [[⟨1, 5⟩], [⟨2, 9⟩]]).1.get 1 =
      some 5 :=
  ⟨rfl, by decide,
    (c2_amended (Map.insert Map.nil 1 5) [[⟨1, 5⟩], [⟨2, 9⟩]] 1 5 rfl).1,
    (c2_amended (Map.insert Map.nil 1 5) [[⟨1, 5⟩], [⟨2, 9⟩]] 1 5 rfl).2
      (by decide)⟩

theorem commitCount_append (a b : List Ev) :
    commitCount (a ++ b) = commitCount a + commitCount b := by
  simp [commitCount, List.filter_append]

theorem commitCount_save_txs (db : Db) (client : Client) (cache : Map Tx)
    (txids : List Nat) : commitCount (save_txs db client cache txids).1 = 0 := by
  unfold save_txs
  cases hscan : scanTxids db txids cache [] with
  | error e => rfl
  | ok p =>
      obtain ⟨c0, nf⟩ := p
      by_cases he : nf.isEmpty
      · simp [he, commitCount]
      · cases hfetch : client.batch_transaction_get nf <;>
          simp [he, hfetch, commitCount, isCommit]

theorem scriptStep_trace (client : Client) (c : Nat) (pending : List Nat)
    (sat : List (List (Nat × Option Nat)) → Except Err Request)
    (st : SyncState) :
    (scriptStep client c pending sat st).1 = [Ev.fetchHist (pending.take c)] := by
  cases h : client.batch_script_get_history (pending.take c) with
  | error e => simp [scriptStep, h]
  | ok hist =>
      cases hs : sat (processHistory st.txid_to_height hist).2 with
      | error e => simp [scriptStep, h, hs]
      | ok req => simp [scriptStep, h, hs]

theorem conftimeStep_trace (client : Client) (c : Nat) (pending : List Nat)
    (sat : List (Option BlockTime) → Except Err Request) (st : SyncState) :
    (conftimeStep client c pending sat st).1 =
      [Ev.fetchHeaders (collectNeeds c (confStream st pending))] := by
  cases h : client.batch_block_header (collectNeeds c (confStream st pending)) with
  | error e => simp [conftimeStep, h]
  | ok headers =>
      cases hb : conftimeBatch st.txid_to_height
          (updateBlockTimes st.block_times
            (collectNeeds c (confStream st pending)) headers)
          (pending.take c) with
      | error e => simp [conftimeStep, h, hb]
      | ok conftimes =>
          cases hs : sat conftimes with
          | error e => simp [conftimeStep, h, hb, hs]
          | ok req => simp [conftimeStep, h, hb, hs]

theorem commitCount_txStep (db : Db) (client : Client) (c : Nat)
    (pending : List Nat)
    (sat : List (List (Option TxOut) × Tx) → Except Err Request)
    (st : SyncState) :
    commitCount (txStep db client c pending sat st).1 = 0 := by
  have h1 := commitCount_save_txs db client st.cache (pending.take c)
  simp only [txStep]
  rcases hs1 : save_txs db client st.cache (pending.take c) with ⟨tr1, r1⟩
  rw [hs1] at h1
  replace h1 : commitCount tr1 = 0 := h1
  cases r1 with
  | error e => exact h1
  | ok cache1 =>
      dsimp only
      cases hla : lookupAll cache1 (pending.take c) with
      | error e => exact h1
      | ok full_transactions =>
          dsimp only
          have h2 := commitCount_save_txs db client cache1
            (inputTxids full_transactions)
          rcases hs2 : save_txs db client cache1
              (inputTxids full_transactions) with ⟨tr2, r2⟩
          rw [hs2] at h2
          replace h2 : commitCount tr2 = 0 := h2
          cases r2 with
          | error e =>
              show commitCount (tr1 ++ tr2) = 0
              simp only [commitCount_append, h1, h2]
          | ok cache2 =>
              dsimp only
              cases htd : txDetails cache2 full_transactions with
              | error e =>
                  show commitCount (tr1 ++ tr2) = 0
                  simp only [commitCount_append, h1, h2]
              | ok full_details =>
                  dsimp only
                  cases hsat : sat full_details with
                  | error e =>
                      show commitCount (tr1 ++ tr2) = 0
                      simp only [commitCount_append, h1, h2]
                  | ok req =>
                      show commitCount (tr1 ++ tr2) = 0
                      simp only [commitCount_append, h1, h2]

theorem commitCount_runLoop (db : Db) (client : Client) (c : Nat) :
    ∀ (fuel : Nat) (req : Request) (st : SyncState),
      commitCount (runLoop db client c fuel req st).1 = 0 := by
  intro fuel
  induction fuel with
  | zero => intro req st; rfl
  | succ fuel ih =>
      intro req st
      cases req with
      | finish u => rfl
      | script pending sat =>
          have htr := scriptStep_trace client c pending sat st
          rcases hs : scriptStep client c pending sat st with ⟨tr, r⟩
          rw [hs] at htr
          cases r with
          | error e =>
              simp only [runLoop, hs]
              have htr2 : tr = [Ev.fetchHist (pending.take c)] := by
                simpa using htr
              subst htr2
              rfl
          | ok p =>
              obtain ⟨req1, st1⟩ := p
              rcases hr : runLoop db client c fuel req1 st1 with ⟨tr1, r1⟩
              have h1 : commitCount tr1 = 0 := by
                have hx := ih req1 st1
                rw [hr] at hx
                simpa using hx
              simp only [runLoop, hs, hr]
              have htr2 : tr = [Ev.fetchHist (pending.take c)] := by
                simpa using htr
              subst htr2
              simp only [commitCount_append, h1]
              rfl
      | conftime pending sat =>
          have htr := conftimeStep_trace client c pending sat st
          rcases hs : conftimeStep client c pending sat st with ⟨tr, r⟩
          rw [hs] at htr
          cases r with
          | error e =>
              simp only [runLoop, hs]
              have htr2 : tr = [Ev.fetchHeaders (collectNeeds c (confStream st pending))] := by
                simpa using htr
              subst htr2
              rfl
          | ok p =>
              obtain ⟨req1, st1⟩ := p
              rcases hr : runLoop db client c fuel req1 st1 with ⟨tr1, r1⟩
              have h1 : commitCount tr1 = 0 := by
                have hx := ih req1 st1
                rw [hr] at hx
                simpa using hx
              simp only [runLoop, hs, hr]
              have htr2 : tr = [Ev.fetchHeaders (collectNeeds c (confStream st pending))] := by
                simpa using htr
              subst htr2
              simp only [commitCount_append, h1]
              rfl
      | tx pending sat =>
          have htr := commitCount_txStep db client c pending sat st
          rcases hs : txStep db client c pending sat st with ⟨tr, r⟩
          rw [hs] at htr
          replace htr : commitCount tr = 0 := htr
          cases r with
          | error e =>
              simp only [runLoop, hs]
              exact htr
          | ok p =>
              obtain ⟨req1, st1⟩ := p
              rcases hr : runLoop db client c fuel req1 st1 with ⟨tr1, r1⟩
              have h1 : commitCount tr1 = 0 := by
                have hx := ih req1 st1
                rw [hr] at hx
                simpa using hx
              simp only [runLoop, hs, hr]
              simp only [commitCount_append, htr, h1]

/-- C5: the sync loop itself never invokes `commit_batch` — a run that
fails (or runs out of fuel) in any phase before reaching `Finished`
records zero commits — and `wallet_setup` invokes `commit_batch` exactly
once, after the loop has arrived at `Finished` with the full batch update,
and zero times otherwise. -/
theorem c5_atomic_commit (db : Db) (client : Client) (c fuel : Nat)
    (req : Request) :
    commitCount (runLoop db client c fuel req initSyncState).1 = 0 ∧
    commitCount (wallet_setup db client c fuel req).1 =
      (if isFinished (runLoop db client c fuel req initSyncState).2
       then 1 else 0) := by
  have h0 := commitCount_runLoop db client c fuel req initSyncState
  rcases hrl : runLoop db client c fuel req initSyncState with ⟨tr, r⟩
  rw [hrl] at h0
  refine ⟨h0, ?_⟩
  unfold wallet_setup
  rw [hrl]
  cases r with
  | none => simpa [isFinished] using h0
  | some res =>
      cases res with
      | error e => simpa [isFinished] using h0
      | ok p =>
          obtain ⟨u, st1⟩ := p
          replace h0 : commitCount tr = 0 := h0
          cases hcb : db.commit_batch u with
          | error e =>
              simp only [hcb, isFinished]
              show commitCount (tr ++ [Ev.commit u]) = 1
              simp only [commitCount_append, h0]
              rfl
          | ok a =>
              simp only [hcb, isFinished]
              show commitCount (tr ++ [Ev.commit u]) = 1
              simp only [commitCount_append, h0]
              rfl

theorem collectNeedsGo_bound (c : Nat) :
    ∀ (stream acc : List Nat), acc.Nodup → acc.length ≤ c →
      ((collectNeedsGo c stream acc).length ≤ c ∧
        (collectNeedsGo c stream acc).Nodup) := by
  intro stream
  induction stream with
  | nil => intro acc h1 h2; exact ⟨h2, h1⟩
  | cons h rest ih =>
      intro acc hnd hlen
      by_cases hl : acc.length < c
      · by_cases hm : h ∈ acc
        · rw [show collectNeedsGo c (h :: rest) acc =
              collectNeedsGo c rest acc by simp [collectNeedsGo, hl, hm]]
          exact ih acc hnd hlen
        · have hnd2 : (acc ++ [h]).Nodup := by
            simp [List.nodup_append, hnd, hm]
          have hlen2 : (acc ++ [h]).length ≤ c := by
            simp only [List.length_append, List.length_cons, List.length_nil]
            omega
          rw [show collectNeedsGo c (h :: rest) acc =
              collectNeedsGo c rest (acc ++ [h]) by
            simp [collectNeedsGo, hl, hm]]
          exact ih _ hnd2 hlen2
      · rw [show collectNeedsGo c (h :: rest) acc = acc by
          simp [collectNeedsGo, hl]]
        exact ⟨hlen, hnd⟩

theorem collectNeeds_bound (c : Nat) (stream : List Nat) :
    (collectNeeds c stream).length ≤ c ∧ (collectNeeds c stream).Nodup :=
  collectNeedsGo_bound c stream [] (by simp) (by simp)

theorem conftimeBatch_length (m bt : Map Nat) :
    ∀ (l : List Nat) (r : List (Option BlockTime)),
      conftimeBatch m bt l = Except.ok r → r.length = l.length := by
  intro l
  induction l with
  | nil =>
      intro r h
      simp [conftimeBatch] at h
      simp [← h]
  | cons t rest ih =>
      intro r h
      unfold conftimeBatch at h
      cases hm : m.get t with
      | none =>
          rw [hm] at h
          dsimp only at h
          cases hr : conftimeBatch m bt rest with
          | error e => rw [hr] at h; simp [Except.map] at h
          | ok l0 =>
              rw [hr] at h
              simp [Except.map] at h
              simp [← h, ih l0 hr]
      | some hh =>
          rw [hm] at h
          dsimp only at h
          cases hb : bt.get hh with
          | none => rw [hb] at h; simp at h
          | some ts =>
              rw [hb] at h
              dsimp only at h
              cases hr : conftimeBatch m bt rest with
              | error e => rw [hr] at h; simp [Except.map] at h
              | ok l0 =>
                  rw [hr] at h
                  simp [Except.map] at h
                  simp [← h, ih l0 hr]

theorem lookupAll_length (cache : Map Tx) :
    ∀ (l : List Nat) (r : List Tx),
      lookupAll cache l = Except.ok r → r.length = l.length := by
  intro l
  induction l with
  | nil =>
      intro r h
      simp [lookupAll] at h
      simp [← h]
  | cons t rest ih =>
      intro r h
      unfold lookupAll at h
      cases hm : cache.get t with
      | none => rw [hm] at h; simp at h
      | some tx0 =>
          rw [hm] at h
          dsimp only at h
          cases hr : lookupAll cache rest with
          | error e => rw [hr] at h; simp [Except.map] at h
          | ok l0 =>
              rw [hr] at h
              simp [Except.map] at h
              simp [← h, ih l0 hr]

theorem txDetails_length (cache : Map Tx) :
    ∀ (txs : List Tx) (r : List (List (Option TxOut) × Tx)),
      txDetails cache txs = Except.ok r → r.length = txs.length := by
  intro txs
  induction txs with
  | nil =>
      intro r h
      simp [txDetails] at h
      simp [← h]
  | cons tx0 rest ih =>
      intro r h
      unfold txDetails at h
      cases hp : prevOutputs cache tx0 with
      | error e => rw [hp] at h; simp at h
      | ok l0 =>
          rw [hp] at h
          dsimp only at h
          cases hr : txDetails cache rest with
          | error e => rw [hr] at h; simp [Except.map] at h
          | ok d0 =>
              rw [hr] at h
              simp [Except.map] at h
              simp [← h, ih d0 hr]

/-- C6: in every phase a single loop iteration draws at most `chunk_size`
pending items — the script-phase history request carries at most `c`
scripts, the conftime header fetch requests at most `c` distinct heights,
and the batches handed to `satisfy` in the conftime and tx phases
(resolved from the first `c` pending items) hold at most `c` entries. -/
theorem c6_chunk_bound (client : Client) (c : Nat) (pending : List Nat)
    (sat1 : List (List (Nat × Option Nat)) → Except Err Request)
    (sat2 : List (Option BlockTime) → Except Err Request)
    (st : SyncState) :
    (∀ l, Ev.fetchHist l ∈ (scriptStep client c pending sat1 st).1 →
      l.length ≤ c) ∧
    (∀ l, Ev.fetchHeaders l ∈ (conftimeStep client c pending sat2 st).1 →
      l.length ≤ c ∧ l.Nodup) ∧
    (∀ (m bt : Map Nat) (r : List (Option BlockTime)),
      conftimeBatch m bt (pending.take c) = Except.ok r → r.length ≤ c) ∧
    (∀ (cache : Map Tx) (txs : List Tx),
      lookupAll cache (pending.take c) = Except.ok txs → txs.length ≤ c) ∧
    (∀ (cache cache2 : Map Tx) (txs : List Tx)
        (r : List (List (Option TxOut) × Tx)),
      lookupAll cache (pending.take c) = Except.ok txs →
      txDetails cache2 txs = Except.ok r → r.length ≤ c) := by
  have htake : (pending.take c).length ≤ c := by
    rw [List.length_take]
    exact min_le_left _ _
  refine ⟨?_, ?_, ?_, ?_, ?_⟩
  · intro l hl
    rw [scriptStep_trace, List.mem_singleton] at hl
    injection hl with h
    subst h
    exact htake
  · intro l hl
    rw [conftimeStep_trace, List.mem_singleton] at hl
    injection hl with h
    subst h
    exact collectNeeds_bound c (confStream st pending)
  · intro m bt r h
    rw [conftimeBatch_length m bt _ r h]
    exact htake
  · intro cache txs h
    rw [lookupAll_length cache _ txs h]
    exact htake
  · intro cache cache2 txs r h1 h2
    rw [txDetails_length cache2 txs r h2, lookupAll_length cache _ txs h1]
    exact htake

/-- C6, witness at a concrete input: a script-phase step with chunk size 2
issues a history fetch for at most 2 scripts. -/
theorem c6_witness :
    Ev.fetchHist [7] ∈ (scriptStep clientNil 2 [7] satFinScript
      initSyncState).1 ∧ ([7] : List Nat).length ≤ 2 :=
  ⟨by decide,
    (c6_chunk_bound clientNil 2 [7] satFinScript satFinConf
      initSyncState).1 [7] (by decide)⟩

theorem conftimeBatch_goof (m bt : Map Nat) (t h : Nat) :
    ∀ l, t ∈ l → m.get t = some h → bt.get h = none →
      conftimeBatch m bt l = Except.error electrum_goof := by
  intro l
  induction l with
  | nil => intro ht _ _; simp at ht
  | cons a rest ih =>
      intro ht hm hb
      rcases List.mem_cons.mp ht with ht | ht
      · subst ht
        simp [conftimeBatch, hm, hb]
      · unfold conftimeBatch
        cases ha : m.get a with
        | none =>
            dsimp only
            rw [ih ht hm hb]
            rfl
        | some hh =>
            dsimp only
            cases hab : bt.get hh with
            | none => rfl
            | some ts =>
                dsimp only
                rw [ih ht hm hb]
                rfl

/-- C7: in the conftime phase, a pending txid in the processed chunk that
has a recorded height whose timestamp is absent from the block-time map
after the batched header fetch (for instance because the backend returned
fewer headers than requested heights) makes the step fail with the
distinct inconsistency error, never skipping the txid. -/
theorem c7_missing_timestamp_goof (client : Client) (c : Nat)
    (pending : List Nat)
    (sat : List (Option BlockTime) → Except Err Request)
    (st : SyncState) (t h : Nat) (headers : List Header)
    (ht : t ∈ pending.take c)
    (hh : st.txid_to_height.get t = some h)
    (hcl : client.batch_block_header
        (collectNeeds c (confStream st pending)) = Except.ok headers)
    (hbt : (updateBlockTimes st.block_times
        (collectNeeds c (confStream st pending)) headers).get h = none) :
    (conftimeStep client c pending sat st).2 = Except.error electrum_goof := by
  have hgoof := conftimeBatch_goof st.txid_to_height
    (updateBlockTimes st.block_times
      (collectNeeds c (confStream st pending)) headers) t h
    (pending.take c) ht hh hbt
  simp [conftimeStep, hcl, hgoof]

/-- C7, witness: txid `5` recorded at height `100`, a backend returning an
empty header list, so height `100` has no timestamp and the step fails. -/
theorem c7_witness :
    (5 : Nat) ∈ ([5] : List Nat).take 1 ∧
    st7.txid_to_height.get 5 = some 100 ∧
    clientNil.batch_block_header
      (collectNeeds 1 (confStream st7 [5])) = Except.ok [] ∧
    (updateBlockTimes st7.block_times
      (collectNeeds 1 (confStream st7 [5])) []).get 100 = none ∧
    (conftimeStep clientNil 1 [5] satFinConf st7).2 =
      Except.error electrum_goof :=
  ⟨by decide, rfl, rfl, rfl,
    c7_missing_timestamp_goof clientNil 1 [5] satFinConf st7 5 100 []
      (by decide) rfl rfl rfl⟩

theorem prevOutputsGo_eq (cache : Map Tx) :
    ∀ inputs : List TxIn,
      prevOutputsGo cache inputs =
        match inputsSpec cache inputs with
        | some l => Except.ok l
        | none => Except.error electrum_goof := by
  intro inputs
  induction inputs with
  | nil => rfl
  | cons i rest ih =>
      by_cases hn : i.previous_output.is_null
      · rw [show prevOutputsGo cache (i :: rest) =
            (prevOutputsGo cache rest).map (fun l => none :: l) by
          simp [prevOutputsGo, hn]]
        rw [show inputsSpec cache (i :: rest) =
            (inputsSpec cache rest).map (fun l => none :: l) by
          simp [inputsSpec, prevOutputSpec, hn]]
        rw [ih]
        cases hs : inputsSpec cache rest <;> simp [Except.map]
      · cases hc : cache.get i.previous_output.txid with
        | none =>
            rw [show prevOutputsGo cache (i :: rest) =
                Except.error electrum_goof by simp [prevOutputsGo, hn, hc]]
            rw [show inputsSpec cache (i :: rest) = none by
              simp [inputsSpec, prevOutputSpec, hn, hc]]
        | some prev =>
            cases ho : prev.output[i.previous_output.vout]? with
            | none =>
                rw [show prevOutputsGo cache (i :: rest) =
                    Except.error electrum_goof by
                  simp [prevOutputsGo, hn, hc, ho]]
                rw [show inputsSpec cache (i :: rest) = none by
                  simp [inputsSpec, prevOutputSpec, hn, hc, ho]]
            | some o =>
                rw [show prevOutputsGo cache (i :: rest) =
                    (prevOutputsGo cache rest).map (fun l => some o :: l) by
                  simp [prevOutputsGo, hn, hc, ho]]
                rw [show inputsSpec cache (i :: rest) =
                    (inputsSpec cache rest).map (fun l => some o :: l) by
                  simp [inputsSpec, prevOutputSpec, hn, hc, ho]]
                rw [ih]
                cases hs : inputsSpec cache rest <;> simp [Except.map]

theorem inputsSpec_none (cache : Map Tx) :
    ∀ (inputs : List TxIn) (i : TxIn), i ∈ inputs →
      prevOutputSpec cache i = none → inputsSpec cache inputs = none := by
  intro inputs
  induction inputs with
  | nil => intro i hi; simp at hi
  | cons a rest ih =>
      intro i hi hnone
      rcases List.mem_cons.mp hi with hi | hi
      · subst hi
        simp [inputsSpec, hnone]
      · cases ha : prevOutputSpec cache a with
        | none => simp [inputsSpec, ha]
        | some o => simp [inputsSpec, ha, ih i hi hnone]

theorem txDetails_goof (cache : Map Tx) :
    ∀ (txs : List Tx) (transaction : Tx), transaction ∈ txs →
      prevOutputs cache transaction = Except.error electrum_goof →
      txDetails cache txs = Except.error electrum_goof := by
  intro txs
  induction txs with
  | nil => intro transaction h; simp at h
  | cons a rest ih =>
      intro transaction htx hgoof
      rcases List.mem_cons.mp htx with htx | htx
      · subst htx
        simp [txDetails, hgoof]
      · have he := prevOutputsGo_eq cache a.input
        cases hs : inputsSpec cache a.input with
        | none =>
            have hpa : prevOutputs cache a = Except.error electrum_goof := by
              unfold prevOutputs
              rw [he, hs]
            simp [txDetails, hpa]
        | some l =>
            have hpa : prevOutputs cache a = Except.ok l := by
              unfold prevOutputs
              rw [he, hs]
            simp [txDetails, hpa, ih transaction htx hgoof, Except.map]

theorem txDetails_pairs (cache : Map Tx) :
    ∀ (txs : List Tx) (res : List (List (Option TxOut) × Tx)),
      txDetails cache txs = Except.ok res →
      res.map Prod.snd = txs ∧
        ∀ p ∈ res, prevOutputs cache p.2 = Except.ok p.1 := by
  intro txs
  induction txs with
  | nil =>
      intro res h
      simp [txDetails] at h
      subst h
      exact ⟨rfl, by simp⟩
  | cons a rest ih =>
      intro res h
      unfold txDetails at h
      cases hp : prevOutputs cache a with
      | error e => rw [hp] at h; simp at h
      | ok l =>
          rw [hp] at h
          dsimp only at h
          cases hr : txDetails cache rest with
          | error e => rw [hr] at h; simp [Except.map] at h
          | ok d =>
              rw [hr] at h
              simp [Except.map] at h
              obtain ⟨hmap, hall⟩ := ih d hr
              refine ⟨?_, ?_⟩
              · simp [← h, hmap]
              · intro p hp2
                rw [← h] at hp2
                rcases List.mem_cons.mp hp2 with hp2 | hp2
                · subst hp2
                  exact hp
                · exact hall p hp2

/-- C8: in the tx phase, the result paired with each transaction is the
list over its inputs where a null (coinbase-like) reference yields `None`
and a non-null reference yields `Some` of the referenced prior output
(`prevOutputs` succeeds exactly when the spec-side per-input resolution
`inputsSpec` is defined, with the same list); a referenced prior
transaction still absent from the cache makes the phase fail with the
inconsistency error; and every pair produced by `txDetails` is the
transaction together with its resolved input list, in order. -/
theorem c8_prev_outputs :
    (∀ (cache : Map Tx) (transaction : Tx) (l : List (Option TxOut)),
      prevOutputs cache transaction = Except.ok l ↔
        inputsSpec cache transaction.input = some l) ∧
    (∀ (cache : Map Tx) (transaction : Tx) (i : TxIn),
      i ∈ transaction.input → i.previous_output.is_null = false →
      cache.get i.previous_output.txid = none →
      prevOutputs cache transaction = Except.error electrum_goof) ∧
    (∀ (cache : Map Tx) (txs : List Tx)
        (res : List (List (Option TxOut) × Tx)),
      txDetails cache txs = Except.ok res →
      res.map Prod.snd = txs ∧
        ∀ p ∈ res, prevOutputs cache p.2 = Except.ok p.1) := by
  refine ⟨?_, ?_, txDetails_pairs⟩
  · intro cache transaction l
    unfold prevOutputs
    rw [prevOutputsGo_eq]
    cases hs : inputsSpec cache transaction.input <;> simp
  · intro cache transaction i hi hn hc
    have hspec : prevOutputSpec cache i = none := by
      simp [prevOutputSpec, hn, hc]
    unfold prevOutputs
    rw [prevOutputsGo_eq, inputsSpec_none cache transaction.input i hi hspec]

/-- C8, witness: a transaction spending output `0` of a cached prior
transaction resolves to `Some` of that output, paired with itself. -/
theorem c8_witness :
    txDetails cacheP [txB] = Except.ok [([some ⟨50⟩], txB)] ∧
    ([([some (⟨50⟩ : TxOut)], txB)].map Prod.snd = [txB] ∧
      ∀ p ∈ [([some (⟨50⟩ : TxOut)], txB)],
        prevOutputs cacheP p.2 = Except.ok p.1) :=
  ⟨rfl, c8_prev_outputs.2.2 cacheP [txB] [([some ⟨50⟩], txB)] rfl⟩

/-- C9: in the tx phase, an input whose non-null previous-output reference
names an out-of-range output index of the referenced cached transaction
makes `txDetails` return the inconsistency error — the output lookup is
index-guarded and total, it never panics. -/
theorem c9_vout_out_of_range (cache : Map Tx) (txs : List Tx)
    (transaction : Tx) (i : TxIn) (prev : Tx)
    (htx : transaction ∈ txs) (hi : i ∈ transaction.input)
    (hn : i.previous_output.is_null = false)
    (hc : cache.get i.previous_output.txid = some prev)
    (hv : prev.output.length ≤ i.previous_output.vout) :
    txDetails cache txs = Except.error electrum_goof := by
  have hget : prev.output[i.previous_output.vout]? = none :=
    List.getElem?_eq_none hv
  have hspec : prevOutputSpec cache i = none := by
    simp [prevOutputSpec, hn, hc, hget]
  have hprev : prevOutputs cache transaction = Except.error electrum_goof := by
    unfold prevOutputs
    rw [prevOutputsGo_eq, inputsSpec_none cache transaction.input i hi hspec]
  exact txDetails_goof cache txs transaction htx hprev

/-- C9, witness: an input referencing output index `5` of a cached prior
transaction that has a single output. -/
theorem c9_witness :
    txA ∈ [txA] ∧ (⟨⟨3, 5⟩⟩ : TxIn) ∈ txA.input ∧
    (⟨⟨3, 5⟩⟩ : TxIn).previous_output.is_null = false ∧
    cacheP.get 3 = some txP ∧ txP.output.length ≤ 5 ∧
    txDetails cacheP [txA] = Except.error electrum_goof :=
  ⟨List.mem_cons_self _ _, by decide, by decide, rfl, by decide,
    c9_vout_out_of_range cacheP [txA] txA ⟨⟨3, 5⟩⟩ txP
      (List.mem_cons_self _ _) (by decide) (by decide) rfl (by decide)⟩

/-- C1, witness for the amended theorem at a concrete input. -/
theorem c1_witness :
    Map.get Map.nil 1 = (none : Option Tx) ∧
    db0.get_raw_tx 1 = Except.ok none ∧
    client1.batch_transaction_get [1] = Except.ok [tx2] ∧
    (∀ u ∈ [tx2], Tx.txid u ≠ 1) ∧
    ∃ c2, save_txs db0 client1 Map.nil [1] = ([Ev.fetchTxs [1]], Except.ok c2) ∧
      c2.get 1 = none ∧
      ∀ k v, c2.get k = some v →
        Map.get Map.nil k = some v ∨ (v ∈ [tx2] ∧ v.txid = k) :=
  ⟨rfl, rfl, rfl, by decide,
    c1_amended db0 client1 Map.nil 1 [tx2] rfl rfl rfl (by decide)⟩

end Bdk
